import Mathlib

/-!
Verification development for the core of the `symbolic` debug-information
library: the DWARF line-program preparation and range queries, DIE range
parsing, the function-reconstruction walk of `symbolic-debuginfo/src/dwarf.rs`,
and the symbol-cache lookup of `symbolic-symcache-new/src/format/lookup.rs`.

Machine integers are modelled as `Nat` with explicit wrap-around (`% 2 ^ 64`)
where the Rust source performs wrapping arithmetic.  Fallible operations are
modelled with `Except` / `Option`.  External collaborators (gimli readers, the
Rust standard library's slice binary search, the symbol table) are modelled by
their documented contracts; everything else is translated directly from the
source.
-/

deriving instance DecidableEq for Except

namespace Symbolic

/-- 64-bit wrapping addition, the release-mode behaviour of `+` on Rust `u64`. -/
def u64add (a b : Nat) : Nat := (a + b) % 2 ^ 64

/-- 64-bit wrapping subtraction, the release-mode behaviour of `-` on Rust
`u64` (for `b < 2 ^ 64` this equals `(a - b) mod 2 ^ 64` over the integers). -/
def u64sub (a b : Nat) : Nat := (a + 2 ^ 64 - b % 2 ^ 64) % 2 ^ 64

/-- Embeds the helper `offset` of `dwarf.rs`:
`(addr as i64).wrapping_sub(offset as i64) as u64`, i.e. the integer
difference reduced modulo `2 ^ 64`. -/
def offset (addr : Nat) (off : Int) : Nat :=
  (((addr : Int) - off) % (2 ^ 64 : Int)).toNat

/-- Models the result contract of Rust `slice::binary_search_by_key` on a
slice whose keys are sorted in ascending order (standard-library
collaborator): `ok i` when the key at index `i` equals the target, and
otherwise `error i` where `i` is the insertion index — the number of keys
strictly below the target. -/
def binarySearchByKey (keys : List Nat) (target : Nat) : Except Nat Nat :=
  match keys with
  | [] => .error 0
  | k :: ks =>
    if k < target then
      match binarySearchByKey ks target with
      | .ok i => .ok (i + 1)
      | .error i => .error (i + 1)
    else if k = target then .ok 0
    else .error 0

/-- The error type of the symbol-cache format (`symbolic-symcache-new`),
restricted to the reference variants used by `lookup.rs`. -/
inductive CacheError
  | invalidFileReference (idx : Nat)
  | invalidFunctionReference (idx : Nat)
  | invalidSourceLocationReference (idx : Nat)
  | invalidStringReference (idx : Nat)
deriving DecidableEq

/-- Embeds `raw::SourceLocation` as consumed by `lookup.rs`. -/
structure RawSourceLocation where
  line : Option Nat
  file_idx : Option Nat
  function_idx : Option Nat
  inlined_into_idx : Option Nat
deriving DecidableEq

/-- Embeds `raw::Function` as consumed by `lookup.rs`. -/
structure RawFunction where
  name_idx : Nat
deriving DecidableEq

/-- Embeds `raw::File` as consumed by `lookup.rs`. -/
structure RawFile where
  comp_dir_idx : Option Nat
  directory_idx : Option Nat
  path_name_idx : Option Nat
deriving DecidableEq

/-- The in-memory symbol-cache format (`Format` of `symbolic-symcache-new`).
The table fields mirror the struct consumed by `lookup.rs`; `addr_offset` is
the header field used by `offset_addr`. -/
structure Format where
  addr_offset : Nat
  ranges : List Nat
  source_locations : List RawSourceLocation
  functions : List RawFunction
  files : List RawFile
deriving DecidableEq

/-- Modelled from the spec: `Format::offset_addr` is defined outside the
provided sources (only `lookup.rs` of the crate is in `src/`).  Per the spec
(§4.8): `rel = addr − addr_offset; if that underflows, yield empty`, with the
result living in the cache's 32-bit relative address space. -/
def offset_addr (f : Format) (addr : Nat) : Option Nat :=
  if addr < f.addr_offset then none
  else if addr - f.addr_offset < 2 ^ 32 then some (addr - f.addr_offset)
  else none

/-- An iterator over the inline chain of source locations
(`SourceLocationIter` of `lookup.rs`). -/
structure SourceLocationIter where
  fmt : Format
  source_location_idx : Option Nat
deriving DecidableEq

/-- Embeds `Format::lookup` of `lookup.rs`: translate the address into the
relative space, binary-search `ranges`, and seed the source-location iterator.
(The Rust `Index::try_from(..).unwrap()` conversion is dropped: indices are
kept as `Nat`.) -/
def lookup (f : Format) (addr : Nat) : SourceLocationIter :=
  let source_location_start := f.source_locations.length - f.ranges.length
  let source_location_idx :=
    (offset_addr f addr).bind fun relative_addr =>
      match binarySearchByKey f.ranges relative_addr with
      | .ok idx => some (source_location_start + idx)
      | .error idx =>
        if idx = f.ranges.length then none
        else some (source_location_start + idx)
  ⟨f, source_location_idx⟩

/-- Embeds `SourceLocationIter::next` of `lookup.rs`: emit the current
source location and advance via `inlined_into_idx`; a dangling index is an
`InvalidSourceLocationReference` error and leaves the index unchanged. -/
def SourceLocationIter.next (it : SourceLocationIter) :
    Except CacheError (Option RawSourceLocation) × SourceLocationIter :=
  match it.source_location_idx with
  | none => (.ok none, it)
  | some idx =>
    match it.fmt.source_locations.get? idx with
    | some source_location =>
      (.ok (some source_location),
        { it with source_location_idx := source_location.inlined_into_idx })
    | none => (.error (.invalidSourceLocationReference idx), it)

/-- The iterator state reached after calling `next` a number of times. -/
def iterStates (it : SourceLocationIter) : Nat → SourceLocationIter
  | 0 => it
  | n + 1 => (iterStates it n).next.2

/-- An address range, embedding gimli's `Range { begin, end }` (the field
names `begin` and `end` are Lean keywords, hence `rbegin` / `rend`). -/
structure DwarfRange where
  rbegin : Nat
  rend : Nat
deriving DecidableEq

/-- A row in the DWARF line program (`DwarfRow` of `dwarf.rs`). -/
structure DwarfRow where
  address : Nat
  file_index : Nat
  line : Option Nat
  size : Option Nat
deriving DecidableEq

/-- A sequence in the DWARF line program (`DwarfSequence` of `dwarf.rs`);
`seqEnd` embeds the source field `end`, a Lean keyword. -/
structure DwarfSequence where
  start : Nat
  seqEnd : Nat
  rows : List DwarfRow
deriving DecidableEq

/-- A row yielded by the gimli line-number state machine, restricted to the
fields `DwarfLineProgram::prepare` reads (gimli collaborator). -/
structure ProgramRow where
  address : Nat
  endSequence : Bool
  file_index : Nat
  line : Option Nat
deriving DecidableEq

/-- Applies a function to the last element of a list (the counterpart of
mutating through `Vec::last_mut`). -/
def updateLast (f : DwarfRow → DwarfRow) : List DwarfRow → List DwarfRow
  | [] => []
  | [x] => [f x]
  | x :: y :: xs => x :: updateLast f (y :: xs)

/-- The loop state of `DwarfLineProgram::prepare`. -/
structure PrepState where
  sequences : List DwarfSequence
  sequence_rows : List DwarfRow
  prev_address : Nat
deriving DecidableEq

/-- One iteration of the row loop in `DwarfLineProgram::prepare`
(`dwarf.rs`, lines 251-312): drop rows at address 0, give the previous row a
size, close the sequence on `end_sequence`, skip address regressions, and
overwrite duplicate addresses in place. -/
def prepareStep (s : PrepState) (r : ProgramRow) : PrepState :=
  if r.address = 0 then s
  else
    let rows := updateLast
      (fun last =>
        if last.address ≤ r.address then
          { last with size := some (r.address - last.address) }
        else last)
      s.sequence_rows
    if r.endSequence then
      if rows.isEmpty then { s with sequence_rows := [], prev_address := 0 }
      else
        { sequences := s.sequences ++
            [{ start := (rows.headD ⟨0, 0, none, none⟩).address,
               seqEnd :=
                 if r.address < s.prev_address then s.prev_address + 1
                 else r.address,
               rows := rows }],
          sequence_rows := [], prev_address := 0 }
    else if r.address < s.prev_address then
      { s with sequence_rows := rows }
    else
      let isDup :=
        match rows.getLast? with
        | some last => last.address == r.address
        | none => false
      let rows2 :=
        if isDup then
          updateLast
            (fun last => { last with file_index := r.file_index, line := r.line })
            rows
        else
          rows ++ [{ address := r.address, file_index := r.file_index,
                     line := r.line, size := none }]
      { s with sequence_rows := rows2, prev_address := r.address }

/-- The trailing-sequence handling of `prepare` (`dwarf.rs`, lines 314-324):
rows left without an `end_sequence` close a final sequence ending at
`prev_address + 1`. -/
def prepareFinish (s : PrepState) : List DwarfSequence :=
  if s.sequence_rows.isEmpty then s.sequences
  else
    s.sequences ++
      [{ start := (s.sequence_rows.headD ⟨0, 0, none, none⟩).address,
         seqEnd := s.prev_address + 1,
         rows := s.sequence_rows }]

/-- Stable insertion into a list sorted by `start` (the sequences sort of
`prepare`; the concrete sorting algorithm the source uses is external). -/
def insertSeqSorted (x : DwarfSequence) : List DwarfSequence → List DwarfSequence
  | [] => [x]
  | y :: ys => if y.start < x.start then y :: insertSeqSorted x ys else x :: y :: ys

/-- Stable sort of sequences by `start`. -/
def sortSequences : List DwarfSequence → List DwarfSequence
  | [] => []
  | x :: xs => insertSeqSorted x (sortSequences xs)

/-- Embeds `DwarfLineProgram::prepare` (`dwarf.rs`, lines 245-333) as a fold
over the state-machine rows, followed by the trailing-sequence handling and
the sort by sequence start. -/
def prepare (rows : List ProgramRow) : List DwarfSequence :=
  sortSequences (prepareFinish (rows.foldl prepareStep ⟨[], [], 0⟩))

/-- The slice `&seq.rows[from..from + len]` taken by `get_rows` after the two
binary searches. -/
def getRowsSlice (rows : List DwarfRow) (fromIdx : Nat) (rend : Nat) :
    List DwarfRow :=
  let tail := rows.drop fromIdx
  let len :=
    match binarySearchByKey (tail.map DwarfRow.address) rend with
    | .ok i => i
    | .error i => i
  tail.take len

/-- Embeds `DwarfLineProgram::get_rows` (`dwarf.rs`, lines 335-353): find the
first sequence meeting the range, binary-search its rows for the range begin
(an exact hit starts there, a miss at 0 moves on to the next sequence, any
other miss starts one row earlier), and cut the slice off at the range end. -/
def get_rows : List DwarfSequence → DwarfRange → List DwarfRow
  | [], _ => []
  | seq :: rest, range =>
    if seq.seqEnd ≤ range.rbegin ∨ range.rend < seq.start then
      get_rows rest range
    else
      match binarySearchByKey (seq.rows.map DwarfRow.address) range.rbegin with
      | .ok idx => getRowsSlice seq.rows idx range.rend
      | .error 0 => get_rows rest range
      | .error (nextIdx + 1) => getRowsSlice seq.rows nextIdx range.rend

/-- The error kind type of `dwarf.rs` (`DwarfErrorKind`; a gimli error wrapped
by `DwarfError::from` carries the `CorruptedData` kind). -/
inductive DwarfErrorKind
  | invalidUnitRef (off : Nat)
  | invalidFileRef (id : Nat)
  | unexpectedInline
  | invertedFunctionRange
  | corruptedData
deriving DecidableEq

/-- A resolved source file (`FileInfo` of `symbolic-debuginfo`); the byte
slices of the source are modelled as strings. -/
structure FileInfo where
  dir : String
  name : String
deriving DecidableEq, Inhabited

/-- A prepared line program of one unit: its sorted sequences together with
the header's file-name table (`resolve_file` composed with `file_info`,
whose internals walk gimli header data external to this core). -/
structure LineProgramModel where
  sequences : List DwarfSequence
  fileTable : Nat → Option FileInfo

/-- The per-unit context consumed by `parse_ranges`, `resolve_lines` and
`DwarfUnit::functions`: the object kind check (`kind == Relocatable`), the
global address offset, the `debug_addr` table backing `DebugAddrIndex`
resolution, the prepared line program, the compilation directory, the
Dart-producer flag, and the external symbol table (`resolve_symbol_name`). -/
structure UnitModel where
  relocatable : Bool
  address_offset : Int
  debug_addr : List Nat
  line_program : Option LineProgramModel
  compilation_dir : String
  prefer_dwarf_names : Bool
  symbol_name : Nat → Option String

/-- Models `DwarfInfo::address` (gimli `debug_addr` lookup): fetch the entry
at the index, a gimli failure surfacing as `CorruptedData`. -/
def unitAddress (u : UnitModel) (i : Nat) : Except DwarfErrorKind Nat :=
  match u.debug_addr.get? i with
  | some a => .ok a
  | none => .error .corruptedData

/-- Attribute names distinguished by the loop of `parse_ranges`;
`rangesLike` covers `DW_AT_ranges`, `DW_AT_rnglists_base` and
`DW_AT_start_scope`, which share one arm in the source. -/
inductive AttrName
  | lowPc
  | highPc
  | callLine
  | callFile
  | rangesLike
  | otherAttr
deriving DecidableEq

/-- One step of the gimli ranges iterator consumed by `parse_ranges`:
a range, an `InvalidAddressRange` error (swallowed, ending the expansion),
or any other gimli error (propagated as `CorruptedData`). -/
inductive RangeItem
  | valid (r : DwarfRange)
  | invalidAddressRange
  | corrupt
deriving DecidableEq

/-- Attribute values distinguished by `parse_ranges` (gimli
`AttributeValue`): `rangeList none` stands for a value on which
`attr_ranges` yields `None`, and `unsupported` for any form outside the
matched ones. -/
inductive AttrValue
  | addr (a : Nat)
  | debugAddrIndex (i : Nat)
  | udata (n : Nat)
  | fileIndex (n : Nat)
  | rangeList (items : Option (List RangeItem))
  | unsupported
deriving DecidableEq

/-- The accumulator of the attribute loop of `parse_ranges`
(`tuple`, `low_pc`, `high_pc`, `high_pc_rel` and the shared range buffer). -/
structure RangesLoopState where
  call_line : Option Nat
  call_file : Option Nat
  low_pc : Option Nat
  high_pc : Option Nat
  high_pc_rel : Option Nat
  range_buf : List DwarfRange
deriving DecidableEq

/-- The expansion of one ranges iterator inside `parse_ranges` (`dwarf.rs`,
lines 575-592): stop silently on `InvalidAddressRange`, propagate other
errors, and push each range unless it begins at 0 in a non-relocatable
object. -/
def expandRangeItems (reloc : Bool) (buf : List DwarfRange) :
    List RangeItem → Except DwarfErrorKind (List DwarfRange)
  | [] => .ok buf
  | .invalidAddressRange :: _ => .ok buf
  | .corrupt :: _ => .error .corruptedData
  | .valid r :: rest =>
    expandRangeItems reloc
      (if 0 < r.rbegin ∨ reloc = true then buf ++ [r] else buf) rest

/-- The attribute loop of `DwarfUnit::parse_ranges` (`dwarf.rs`, lines
544-599), translated arm by arm.  Note that the `DW_AT_high_pc` /
`DebugAddrIndex` arm assigns the resolved address to `low_pc` — exactly as
the source does on line 557. -/
def parseRangesLoop (u : UnitModel) :
    List (AttrName × AttrValue) → RangesLoopState →
    Except DwarfErrorKind RangesLoopState
  | [], s => .ok s
  | (name, value) :: attrs, s =>
    match name with
    | .lowPc =>
      match value with
      | .addr a => parseRangesLoop u attrs { s with low_pc := some a }
      | .debugAddrIndex i =>
        match unitAddress u i with
        | .ok a => parseRangesLoop u attrs { s with low_pc := some a }
        | .error e => .error e
      | _ => .error .corruptedData
    | .highPc =>
      match value with
      | .addr a => parseRangesLoop u attrs { s with high_pc := some a }
      | .debugAddrIndex i =>
        match unitAddress u i with
        | .ok a => parseRangesLoop u attrs { s with low_pc := some a }
        | .error e => .error e
      | .udata n => parseRangesLoop u attrs { s with high_pc_rel := some n }
      | _ => .error .corruptedData
    | .callLine =>
      match value with
      | .udata n => parseRangesLoop u attrs { s with call_line := some n }
      | _ => .error .corruptedData
    | .callFile =>
      match value with
      | .fileIndex n => parseRangesLoop u attrs { s with call_file := some n }
      | _ => .error .corruptedData
    | .rangesLike =>
      match value with
      | .rangeList (some items) =>
        match expandRangeItems u.relocatable s.range_buf items with
        | .ok buf => parseRangesLoop u attrs { s with range_buf := buf }
        | .error e => .error e
      | _ => parseRangesLoop u attrs s
    | .otherAttr => parseRangesLoop u attrs s

/-- The final comparison of `parse_ranges` once `low_pc` and `high_pc` are
both at hand (`dwarf.rs`, lines 621-637): equal means an empty DIE, inverted
means `InvertedFunctionRange`, otherwise the single synthesised range. -/
def parseRangesCheck (l h : Nat) (tuple : Option Nat × Option Nat) :
    Except DwarfErrorKind (List DwarfRange × (Option Nat × Option Nat)) :=
  if l = h then .ok ([], tuple)
  else if h < l then .error .invertedFunctionRange
  else .ok ([⟨l, h⟩], tuple)

/-- The post-processing of `parse_ranges` (`dwarf.rs`, lines 601-637):
early-exit on a non-empty buffer, drop `low_pc = 0` DIEs outside relocatable
objects, compute `high_pc` from the absolute or the relative form
(`low_pc.wrapping_add`), and synthesise the range. -/
def parseRangesPost (u : UnitModel) (s : RangesLoopState) :
    Except DwarfErrorKind (List DwarfRange × (Option Nat × Option Nat)) :=
  if s.range_buf ≠ [] then .ok (s.range_buf, (s.call_line, s.call_file))
  else
    match s.low_pc with
    | none => .ok ([], (s.call_line, s.call_file))
    | some l =>
      if l ≠ 0 ∨ u.relocatable = true then
        match s.high_pc, s.high_pc_rel with
        | some h, _ => parseRangesCheck l h (s.call_line, s.call_file)
        | none, some rel =>
          parseRangesCheck l (u64add l rel) (s.call_line, s.call_file)
        | none, none => .ok ([], (s.call_line, s.call_file))
      else .ok ([], (s.call_line, s.call_file))

/-- Embeds `DwarfUnit::parse_ranges` (`dwarf.rs`, lines 532-638): the
attribute loop followed by the post-processing, threading the caller's range
buffer.  Returns the produced ranges together with the call-site tuple. -/
def parse_ranges (u : UnitModel) (attrs : List (AttrName × AttrValue))
    (range_buf : List DwarfRange) :
    Except DwarfErrorKind (List DwarfRange × (Option Nat × Option Nat)) :=
  match parseRangesLoop u attrs
      ⟨none, none, none, none, none, range_buf⟩ with
  | .ok s => parseRangesPost u s
  | .error e => .error e

/-- A single line record of a function (`LineInfo` of `symbolic-debuginfo`,
with the file resolved through the line-program header). -/
structure LineInfo where
  address : Nat
  size : Option Nat
  file : FileInfo
  line : Nat
deriving DecidableEq

/-- Embeds `DwarfUnit::resolve_file`: look the file index up in the
line-program header's table; without a line program there is no file. -/
def resolve_file (u : UnitModel) (file_id : Nat) : Option FileInfo :=
  match u.line_program with
  | none => none
  | some lp => lp.fileTable file_id

/-- The collapsing loop inside `resolve_lines` (`dwarf.rs`, lines 676-706):
a row sharing `(file_index, line)` with the pending record extends its size;
any other row pushes the pending record and restarts it; at the end the
pending record's size is clipped to the range end (when present). -/
def resolveLoop (u : UnitModel) (rend : Nat) (lastFile : Nat)
    (lastInfo : LineInfo) : List DwarfRow → List LineInfo
  | [] =>
    [{ lastInfo with
        size := lastInfo.size.map fun _ =>
          u64sub (offset rend u.address_offset) lastInfo.address }]
  | row :: rest =>
    let line := row.line.getD 0
    if lastFile = row.file_index ∧ lastInfo.line = line then
      resolveLoop u rend lastFile
        { lastInfo with
            size := lastInfo.size.map fun s => u64add s (row.size.getD 0) }
        rest
    else
      lastInfo ::
        resolveLoop u rend row.file_index
          { address := offset row.address u.address_offset
            size := row.size
            file := (resolve_file u row.file_index).getD default
            line := line }
          rest

/-- The per-range body of `resolve_lines` (`dwarf.rs`, lines 667-707): the
first row is clipped up to the range begin (address replaced, size extended
by the clipped prefix), the remaining rows are folded with collapsing. -/
def resolveLinesOne (u : UnitModel) (rows : List DwarfRow)
    (range : DwarfRange) : List LineInfo :=
  match rows with
  | [] => []
  | first :: rest =>
    resolveLoop u range.rend first.file_index
      { address := offset range.rbegin u.address_offset
        size := first.size.map fun s => u64sub (u64add s first.address) range.rbegin
        file := (resolve_file u first.file_index).getD default
        line := first.line.getD 0 }
      rest

/-- Embeds `DwarfUnit::resolve_lines` (`dwarf.rs`, lines 641-711): no line
program means no lines; otherwise each range contributes the collapsed
records of its row slice, in range order. -/
def resolve_lines (u : UnitModel) (ranges : List DwarfRange) : List LineInfo :=
  match u.line_program with
  | none => []
  | some lp =>
    (ranges.map fun r => resolveLinesOne u (get_rows lp.sequences r) r).flatten

/-- A materialised function (`Function` of `symbolic-debuginfo`); the name is
kept as its resolved text. -/
structure Func where
  address : Nat
  size : Nat
  name : String
  compilation_dir : String
  lines : List LineInfo
  inlinees : List Func
  inline : Bool

instance : Inhabited Func := ⟨⟨0, 0, "", "", [], [], false⟩⟩

/-- Modelled from the spec: `FunctionStack::flush` lives in `crate::shared`,
which is not among the provided sources.  Per the spec (§4.6, §9) the stack
holds `(depth, function)` pairs; flushing at depth `d` pops every entry whose
depth is ≥ `d`, attaching each popped function as an inlinee of the new top,
or appending it to the output list when the stack has emptied.  The stack is
represented top-first. -/
def stackFlushGo : Nat → Int → List (Int × Func) → List Func →
    List (Int × Func) × List Func
  | _, _, [], out => ([], out)
  | 0, _, st, out => (st, out)
  | fuel + 1, d, (ed, f) :: rest, out =>
    if d ≤ ed then
      match rest with
      | (pd, parent) :: rest2 =>
        stackFlushGo fuel d
          ((pd, { parent with inlinees := parent.inlinees ++ [f] }) :: rest2) out
      | [] => stackFlushGo fuel d [] (out ++ [f])
    else ((ed, f) :: rest, out)

/-- `stackFlush` runs the loop with fuel equal to the stack length; each
iteration pops one entry, so the fuel is exact and the zero-fuel fallback is
never reached. -/
def stackFlush (d : Int) (st : List (Int × Func)) (out : List Func) :
    List (Int × Func) × List Func :=
  stackFlushGo st.length d st out

/-- Stable insertion by range begin. -/
def insertRangeSorted (r : DwarfRange) :
    List DwarfRange → List DwarfRange
  | [] => [r]
  | x :: xs =>
    if x.rbegin < r.rbegin then x :: insertRangeSorted r xs else r :: x :: xs

/-- Stable sort of the range buffer by `begin`
(`range_buf.sort_by_key(|r| r.begin)`, `dwarf.rs`, line 812). -/
def sortRanges : List DwarfRange → List DwarfRange
  | [] => []
  | r :: rs => insertRangeSorted r (sortRanges rs)

/-- The range-length sum `range_buf.iter().map(|r| r.end - r.begin).sum()`
(`dwarf.rs`, line 817), with `u64` wrapping arithmetic. -/
def sumRangeSizes (ranges : List DwarfRange) : Nat :=
  ranges.foldl (fun acc r => u64add acc (u64sub r.rend r.rbegin)) 0

/-- The record end `record.address + record.size.unwrap_or(0)` used by the
splicing loop. -/
def lineRecordEnd (l : LineInfo) : Nat := u64add l.address (l.size.getD 0)

/-- The inner while loop of the inline line splicing (`dwarf.rs`, lines
893-961), with explicit fuel.  The loop performs at most
`lines.length + 2` iterations: every iteration either terminates, advances
the index past an existing record, or inserts a trailing split record whose
address equals the range end, terminating the next iteration — so the fuel
passed by `spliceOneRange` never runs out. -/
def spliceWhile (file : FileInfo) (line : Nat) (rb re : Nat) :
    Nat → List LineInfo → Nat → List LineInfo × Nat
  | 0, lines, index => (lines, index)
  | fuel + 1, lines, index =>
    match lines.get? index with
    | none => (lines, index)
    | some record =>
      if re ≤ record.address then (lines, index)
      else
        let index2 := index + 1
        let recordEnd := lineRecordEnd record
        if recordEnd ≤ rb then spliceWhile file line rb re fuel lines index2
        else
          let needSplit := re < recordEnd
          let record1 :=
            if needSplit then
              { record with size := some (u64sub re record.address) }
            else record
          let split : Option LineInfo :=
            if needSplit then
              some { address := re, size := some (u64sub recordEnd re),
                     file := record.file, line := record.line }
            else none
          if record.address < rb then
            let maxSize := u64sub rb record.address
            let record2 :=
              if (match record1.size with
                  | none => true
                  | some prev => decide (maxSize < prev)) then
                { record1 with size := some maxSize }
              else record1
            let size := u64sub (min recordEnd re) rb
            let lines2 := (lines.set index record2).insertIdx index2
              { address := rb, size := some size, file := file, line := line }
            let index3 := index2 + 1
            let lines3 :=
              match split with
              | some sp => lines2.insertIdx index3 sp
              | none => lines2
            spliceWhile file line rb re fuel lines3 index3
          else
            let record2 := { record1 with file := file, line := line }
            let lines2 := lines.set index record2
            let lines3 :=
              match split with
              | some sp => lines2.insertIdx index2 sp
              | none => lines2
            spliceWhile file line rb re fuel lines3 index2

/-- The per-range splicing step (`dwarf.rs`, lines 877-978): insert a record
at the range start when none covers it, rewrite the overlapping records to
the call site via the while loop, and fill a trailing gap. -/
def spliceOneRange (file : FileInfo) (line : Nat) (rb re : Nat)
    (st : List LineInfo × Nat) : List LineInfo × Nat :=
  let lines := st.1
  let index := st.2
  let pre : List LineInfo × Nat :=
    match lines.get? index with
    | some next =>
      if rb < next.address then
        (lines.insertIdx index
          { address := rb, size := some (u64sub (min re next.address) rb),
            file := file, line := line },
         index + 1)
      else (lines, index)
    | none => (lines, index)
  let mid := spliceWhile file line rb re (pre.1.length + 2) pre.1 pre.2
  match (if mid.2 = 0 then none else mid.1.get? (mid.2 - 1)) with
  | some prev =>
    let recordEnd := lineRecordEnd prev
    if recordEnd < re then
      (mid.1.insertIdx mid.2
        { address := recordEnd, size := some (u64sub re recordEnd),
          file := file, line := line },
       mid.2 + 1)
    else mid
  | none => mid

/-- The inline line splicing over all ranges of an inlinee (`dwarf.rs`,
lines 868-980); the record index persists across ranges. -/
def spliceLines (u : UnitModel) (file : FileInfo) (line : Nat)
    (ranges : List DwarfRange) (lines : List LineInfo) : List LineInfo :=
  (ranges.foldl
    (fun st r =>
      spliceOneRange file line (offset r.rbegin u.address_offset)
        (offset r.rend u.address_offset) st)
    (lines, 0)).1

/-- The DIE tags distinguished by the walk. -/
inductive DieTag
  | subprogram
  | inlinedSubroutine
  | otherTag
deriving DecidableEq

/-- One DIE of the unit's DFS, as consumed by `DwarfUnit::functions`: the
`next_dfs` depth movement, the tag, the attributes read by `parse_ranges`,
and the outcome of `resolve_dwarf_name` for the entry (whose internals —
attribute strings and cross-unit reference chasing — are claim-external and
carried as data). -/
structure DieEvent where
  movement : Int
  tag : DieTag
  attrs : List (AttrName × AttrValue)
  dwarfName : Option String

/-- Maps a tag to the `inline` flag, `none` meaning the DIE is skipped
(`dwarf.rs`, lines 789-793). -/
def tagInline : DieTag → Option Bool
  | .subprogram => some false
  | .inlinedSubroutine => some true
  | .otherTag => none

/-- The DFS state of `DwarfUnit::functions`: current depth, the skip marker,
the output vector, the pending-function stack and the shared dedup set
(`seen_ranges`, a set of `(address, size)` pairs kept as a list). -/
structure WalkState where
  depth : Int
  skippedDepth : Option Int
  functions : List Func
  stack : List (Int × Func)
  seen : List (Nat × Nat)

/-- The body of one DFS iteration of `DwarfUnit::functions` (`dwarf.rs`,
lines 783-993), after the skip check: flush the stack to the current depth,
filter by tag, parse ranges (an empty buffer marks the subtree skipped),
sort them, deduplicate non-inline functions by `(address, size)`, resolve
the name (symbol table first unless Dart or inline), resolve lines, splice
inline call-site lines into the parent, and push the function. -/
def stepBody (u : UnitModel) (s : WalkState) (e : DieEvent) :
    Except DwarfErrorKind WalkState :=
  let flushed := stackFlush s.depth s.stack s.functions
  let stack1 := flushed.1
  let fns1 := flushed.2
  match tagInline e.tag with
  | none => .ok { s with stack := stack1, functions := fns1 }
  | some inline =>
    match parse_ranges u e.attrs [] with
    | .error err => .error err
    | .ok (ranges, callTuple) =>
      if ranges = [] then
        .ok { s with
                stack := stack1
                functions := fns1
                skippedDepth := some s.depth }
      else
        let sorted := sortRanges ranges
        let function_address := offset (sorted.headD ⟨0, 0⟩).rbegin u.address_offset
        let function_size := sumRangeSizes sorted
        if inline = false ∧ (function_address, function_size) ∈ s.seen then
          .ok { s with
                  stack := stack1
                  functions := fns1
                  skippedDepth := some s.depth }
        else
          let seen2 :=
            if inline then s.seen
            else (function_address, function_size) :: s.seen
          let symbolName :=
            if u.prefer_dwarf_names = true ∨ inline = true then none
            else u.symbol_name function_address
          let name := (symbolName.orElse fun _ => e.dwarfName).getD ""
          let lines := resolve_lines u sorted
          let func : Func :=
            ⟨function_address, function_size, name, u.compilation_dir,
             lines, [], inline⟩
          if inline then
            match stack1 with
            | [] => .error .unexpectedInline
            | (pd, parent) :: rest =>
              let parent2 :=
                match callTuple.1, callTuple.2 with
                | some line, some file_id =>
                  let file := (resolve_file u file_id).getD default
                  { parent with lines := spliceLines u file line sorted parent.lines }
                | _, _ => parent
              .ok { s with
                      stack := (s.depth, func) :: (pd, parent2) :: rest
                      functions := fns1
                      seen := seen2 }
          else
            .ok { s with
                    stack := (s.depth, func) :: stack1
                    functions := fns1
                    seen := seen2 }

/-- One DFS iteration of `DwarfUnit::functions` (`dwarf.rs`, lines 772-781):
update the depth, skip the entry while inside a skipped subtree, otherwise
clear the marker and run the body. -/
def functionsStep (u : UnitModel) (s : WalkState) (e : DieEvent) :
    Except DwarfErrorKind WalkState :=
  let depth := s.depth + e.movement
  match s.skippedDepth with
  | some skipped =>
    if skipped < depth then .ok { s with depth := depth }
    else stepBody u { s with depth := depth, skippedDepth := none } e
  | none => stepBody u { s with depth := depth, skippedDepth := none } e

/-- The DFS loop of `DwarfUnit::functions`, stopping at the first error and
returning the state reached before the failing entry (whose partial `seen`
mutations are exactly those of the successful prefix — a failing entry never
mutates `seen` before erroring). -/
def walkEvents (u : UnitModel) :
    List DieEvent → WalkState → WalkState × Option DwarfErrorKind
  | [], s => (s, none)
  | e :: es, s =>
    match functionsStep u s e with
    | .ok s2 => walkEvents u es s2
    | .error err => (s, some err)

/-- The end-of-walk flush at depth 0 (`dwarf.rs`, line 997). -/
def walkFinish (s : WalkState) : List Func :=
  (stackFlush 0 s.stack s.functions).2

/-- Embeds `DwarfUnit::functions` over a unit's DFS events, seeded with the
shared `seen_ranges` set; the returned set reflects the insertions made by
the processed prefix, mirroring the `&mut` parameter. -/
def unitFunctions (u : UnitModel) (events : List DieEvent)
    (seen : List (Nat × Nat)) :
    Except DwarfErrorKind (List Func) × List (Nat × Nat) :=
  let r := walkEvents u events ⟨0, none, [], [], seen⟩
  match r.2 with
  | some err => (.error err, r.1.seen)
  | none => (.ok (walkFinish r.1), r.1.seen)

/-- The full emission of one function-iterator run (`DwarfFunctionIterator`
drained to the end): units in order, `seen_ranges` threaded through all of
them, and unit or walk errors yielded as error items. -/
def sessionFunctions :
    List (Except DwarfErrorKind (UnitModel × List DieEvent)) →
    List (Nat × Nat) → List (Except DwarfErrorKind Func)
  | [], _ => []
  | .error e :: rest, seen => .error e :: sessionFunctions rest seen
  | .ok (u, events) :: rest, seen =>
    match unitFunctions u events seen with
    | (.error err, seen2) => .error err :: sessionFunctions rest seen2
    | (.ok fns, seen2) => fns.map .ok ++ sessionFunctions rest seen2

/-- The state of `DwarfFunctionIterator`: the remaining unit iterator, the
drained function vector, the shared `seen_ranges` set and the fused flag. -/
structure FnIterState where
  units : List (Except DwarfErrorKind (UnitModel × List DieEvent))
  fns : List Func
  seen : List (Nat × Nat)
  finished : Bool

/-- The unit-advancing loop of `DwarfFunctionIterator::next` (`dwarf.rs`,
lines 1449-1464): unit errors and `functions()` errors are yielded as items
without setting `finished`; an exhausted unit iterator sets `finished`. -/
def fnIterLoop :
    List (Except DwarfErrorKind (UnitModel × List DieEvent)) →
    List (Nat × Nat) →
    Option (Except DwarfErrorKind Func) × FnIterState
  | [], seen => (none, ⟨[], [], seen, true⟩)
  | .error e :: us, seen => (some (.error e), ⟨us, [], seen, false⟩)
  | .ok (u, events) :: us, seen =>
    match unitFunctions u events seen with
    | (.error err, seen2) => (some (.error err), ⟨us, [], seen2, false⟩)
    | (.ok fns, seen2) =>
      match fns with
      | f :: fs => (some (.ok f), ⟨us, fs, seen2, false⟩)
      | [] => fnIterLoop us seen2

/-- Embeds `DwarfFunctionIterator::next` (`dwarf.rs`, lines 1444-1468). -/
def fnIterNext (s : FnIterState) :
    Option (Except DwarfErrorKind Func) × FnIterState :=
  if s.finished then (none, s)
  else
    match s.fns with
    | f :: fs => (some (.ok f), { s with fns := fs })
    | [] => fnIterLoop s.units s.seen

/-- The iterator state after a number of `next` calls. -/
def fnIterStates (s : FnIterState) : Nat → FnIterState
  | 0 => s
  | n + 1 => fnIterNext (fnIterStates s n) |>.2

/-- The successfully yielded functions of an emission. -/
def okFns : List (Except DwarfErrorKind Func) → List Func
  | [] => []
  | .ok f :: rest => f :: okFns rest
  | .error _ :: rest => okFns rest

/-- The line tables of the successfully yielded functions. -/
def emittedLines (out : List (Except DwarfErrorKind Func)) :
    List (List LineInfo) :=
  (okFns out).map Func.lines

/-- The dedup key `(address, size)` of a function. -/
def funcKey (f : Func) : Nat × Nat := (f.address, f.size)

/-- The dedup keys of the non-inline functions of a list. -/
def niKeys (fs : List Func) : List (Nat × Nat) :=
  (fs.filter fun f => !f.inline).map funcKey

/-- The linked-row relation holding inside a prepared sequence slice: rows
are strictly address-sorted and each row's size spans exactly up to its
successor. -/
def rowLink (a b : DwarfRow) : Prop :=
  a.address < b.address ∧ a.size = some (b.address - a.address)

/-- The amended per-range line-record invariant: strictly ascending
addresses, no overlap, and adjacent records with different `(file, line)`. -/
def LineChainOk (a b : LineInfo) : Prop :=
  a.address < b.address ∧ a.address + a.size.getD 0 ≤ b.address ∧
  (a.file, a.line) ≠ (b.file, b.line)

/-- A unit mapping file indices 1 and 2 to distinct files, used by the
amended C4 witness. -/
def unitC4w : UnitModel :=
  { relocatable := false
    address_offset := 0
    debug_addr := []
    line_program := some
      ⟨[], fun i =>
        if i = 1 then some ⟨"", "a"⟩
        else if i = 2 then some ⟨"", "b"⟩ else none⟩
    compilation_dir := ""
    prefer_dwarf_names := false
    symbol_name := fun _ => none }

/-- The dedup invariant of the DFS walk, relative to the `seen_ranges` set
`seen0` the walk started from: the keys of the non-inline functions in the
output and on the stack are distinct, each of them is registered in the
current set but was not in the starting set, and the starting set is
contained in the current one. -/
def WalkInv (seen0 : List (Nat × Nat)) (s : WalkState) : Prop :=
  (niKeys (s.functions ++ s.stack.map Prod.snd)).Nodup ∧
  (∀ k ∈ niKeys (s.functions ++ s.stack.map Prod.snd),
    k ∈ s.seen ∧ k ∉ seen0) ∧
  (∀ k ∈ seen0, k ∈ s.seen)

/-- The cumulative depths at which a list of DFS events is visited, starting
from a given depth. -/
def eventDepths (d : Int) : List DieEvent → List Int
  | [] => []
  | e :: es => (d + e.movement) :: eventDepths (d + e.movement) es

/-- The total depth movement of a list of events. -/
def sumMovements (es : List DieEvent) : Int := (es.map DieEvent.movement).sum

/-- A unit with no line program, used by several fixtures. -/
def plainUnit : UnitModel :=
  { relocatable := false
    address_offset := 0
    debug_addr := []
    line_program := none
    compilation_dir := ""
    prefer_dwarf_names := false
    symbol_name := fun _ => none }

/-- A subprogram DIE synthesising the range `[4096, 4112)`. -/
def eventPlainFn : DieEvent :=
  ⟨1, .subprogram, [(.lowPc, .addr 4096), (.highPc, .udata 16)], some "f"⟩

/-- The C3 counterexample iterator: a failing unit followed by a good unit. -/
def fnIterC3 : FnIterState :=
  ⟨[.error .corruptedData, .ok (plainUnit, [eventPlainFn])], [], [], false⟩

/-- The function that the good unit of the C3 fixture emits. -/
def funcPlain : Func := ⟨4096, 16, "f", "", [], [], false⟩

/-- S3 of the spec: a linker-eliminated subprogram stub (`low_pc = 0` and no
ranges) whose range buffer comes out empty. -/
def eventStub : DieEvent := ⟨1, .subprogram, [(.lowPc, .addr 0)], none⟩

/-- The live inlined child of the S3 stub. -/
def eventStubChild : DieEvent :=
  ⟨1, .inlinedSubroutine,
   [(.lowPc, .addr 12288), (.highPc, .addr 12296)], some "inner"⟩

/-- The C4 unit: a line program with a single row at 16 whose sequence runs
to 64, and file index 1 resolving to a concrete file. -/
def unitC4 : UnitModel :=
  { relocatable := false
    address_offset := 0
    debug_addr := []
    line_program := some
      ⟨prepare [⟨16, false, 1, some 10⟩, ⟨64, true, 1, none⟩],
       fun i => if i = 1 then some ⟨"d", "f"⟩ else none⟩
    compilation_dir := ""
    prefer_dwarf_names := false
    symbol_name := fun _ => none }

/-- The C4 subprogram: two ranges starting at the same address (one nested in
the other), both covered by the single line row. -/
def eventC4 : DieEvent :=
  ⟨1, .subprogram,
   [(.rangesLike, .rangeList (some [.valid ⟨16, 64⟩, .valid ⟨16, 32⟩]))],
   some "f"⟩

/-- The data of a parsed unit needed for section-to-unit offset conversion
(gimli `Unit`, restricted to its header's section offset and total length). -/
structure UnitStub where
  uoffset : Nat
  ulength : Nat
deriving DecidableEq

/-- The unit registry (`DwarfInfo`) restricted to what `find_unit_offset`
reads: the headers' section offsets and, parallel to them, the outcome of
`get_unit` for each slot (`ok none` marks a unit whose top DIE is missing). -/
structure InfoModel where
  headers : List Nat
  units : List (Except DwarfErrorKind (Option UnitStub))
deriving DecidableEq

/-- Embeds `DwarfInfo::get_unit` on the model: an out-of-bounds index is
silently `none`; otherwise the memoised parse outcome of the slot. -/
def get_unit (info : InfoModel) (index : Nat) :
    Except DwarfErrorKind (Option UnitStub) :=
  match info.units.get? index with
  | none => .ok none
  | some r => r

/-- Models gimli `UnitSectionOffset::to_unit_offset` (gimli collaborator):
the section offset made relative to the unit's own header, defined when the
offset falls inside the unit. -/
def to_unit_offset (u : UnitStub) (off : Nat) : Option Nat :=
  if u.uoffset ≤ off ∧ off - u.uoffset < u.ulength then some (off - u.uoffset)
  else none

/-- The shared tail of `find_unit_offset` once a candidate index is chosen
(`dwarf.rs`, lines 1204-1210): fetch the unit and convert the offset, any
failure becoming `InvalidUnitRef`. -/
def fetchUnitOffset (info : InfoModel) (index : Nat) (off : Nat) :
    Except DwarfErrorKind (Nat × Nat) :=
  match get_unit info index with
  | .error e => .error e
  | .ok none => .error (.invalidUnitRef off)
  | .ok (some u) =>
    match to_unit_offset u off with
    | some rel => .ok (index, rel)
    | none => .error (.invalidUnitRef off)

/-- Embeds `DwarfInfo::find_unit_offset` (`dwarf.rs`, lines 1189-1211):
binary-search the headers by section offset; `Err(0)` is an immediate
`InvalidUnitRef`, any other miss selects the predecessor header.  The result
pairs the selected unit index with the unit-relative offset. -/
def find_unit_offset (info : InfoModel) (off : Nat) :
    Except DwarfErrorKind (Nat × Nat) :=
  match binarySearchByKey info.headers off with
  | .ok index => fetchUnitOffset info index off
  | .error 0 => .error (.invalidUnitRef off)
  | .error (nextIndex + 1) => fetchUnitOffset info nextIndex off

/-- Follows the spec's words for `find_unit_offset` (refinement reference):
the candidate is the predecessor — the last header whose offset is at most
the probed offset — and an offset before every header fails with
`InvalidUnitRef`. -/
def findUnitOffsetSpec (info : InfoModel) (off : Nat) :
    Except DwarfErrorKind (Nat × Nat) :=
  match (info.headers.filter (fun k => decide (k ≤ off))).length with
  | 0 => .error (.invalidUnitRef off)
  | n + 1 => fetchUnitOffset info n off

/-- A concrete two-unit registry used as a witness fixture for C9. -/
def infoC9 : InfoModel :=
  { headers := [100, 200]
    units := [.ok (some ⟨100, 100⟩), .ok (some ⟨200, 50⟩)] }

/-- A plain non-relocatable unit with a one-entry `debug_addr` table, used by
the claim C1 failing input. -/
def unitC1 : UnitModel :=
  { relocatable := false
    address_offset := 0
    debug_addr := [8192]
    line_program := none
    compilation_dir := ""
    prefer_dwarf_names := false
    symbol_name := fun _ => none }

/-- Concrete line-program rows for claim C5: the `end_sequence` row arrives at
exactly the previous row's address. -/
def lineRowsC5 : List ProgramRow :=
  [⟨4096, false, 1, some 10⟩, ⟨4104, false, 1, some 11⟩, ⟨4104, true, 1, none⟩]

/-- A concrete two-range cache used as a witness fixture. -/
def witnessFormat : Format :=
  { addr_offset := 0
    ranges := [10, 20]
    source_locations :=
      [⟨some 1, none, none, none⟩, ⟨some 2, none, none, none⟩]
    functions := []
    files := [] }

end Symbolic

namespace Symbolic

/-- Claim C2: on the symbol cache, for an address whose relative form is
defined, an exact binary-search hit at `k` starts the iterator at
`source_locations[source_location_start + k]`; a miss above all ranges yields
the empty iterator; a miss below all ranges starts the iterator at the first
range's chain (`source_location_start + 0`). -/
theorem c2_lookup_start (f : Format) (addr rel : Nat)
    (hrel : offset_addr f addr = some rel) :
    (∀ k, binarySearchByKey f.ranges rel = .ok k →
      (lookup f addr).source_location_idx =
        some (f.source_locations.length - f.ranges.length + k)) ∧
    (binarySearchByKey f.ranges rel = .error f.ranges.length →
      (lookup f addr).source_location_idx = none ∧
      (lookup f addr).next = (.ok none, lookup f addr)) ∧
    (binarySearchByKey f.ranges rel = .error 0 → 0 ≠ f.ranges.length →
      (lookup f addr).source_location_idx =
        some (f.source_locations.length - f.ranges.length)) := by
  refine ⟨?_, ?_, ?_⟩
  · intro k hk
    simp [lookup, hrel, hk]
  · intro hk
    constructor
    · simp [lookup, hrel, hk]
    · simp [lookup, SourceLocationIter.next, hrel, hk]
  · intro hk hne
    simp [lookup, hrel, hk, hne]

/-- Witness for C2 at a concrete cache: an exact hit on the first range. -/
theorem c2_lookup_start_witness :
    offset_addr witnessFormat 10 = some 10 ∧
    (lookup witnessFormat 10).source_location_idx = some 0 := by
  refine ⟨rfl, ?_⟩
  exact (c2_lookup_start witnessFormat 10 10 rfl).1 0 rfl

/-- Claim C10: if the iterator's current index is out of bounds for the
source-location table, `next` returns `InvalidSourceLocationReference idx`
without advancing, so every subsequent call returns the same error. -/
theorem c10_dangling_index_sticks (f : Format) (i : Nat)
    (h : f.source_locations.length ≤ i) (n : Nat) :
    iterStates ⟨f, some i⟩ n = ⟨f, some i⟩ ∧
    (SourceLocationIter.next (iterStates ⟨f, some i⟩ n)).1 =
      .error (.invalidSourceLocationReference i) := by
  have hget : f.source_locations[i]? = none := List.getElem?_eq_none h
  have hstep : SourceLocationIter.next ⟨f, some i⟩ =
      (.error (.invalidSourceLocationReference i), ⟨f, some i⟩) := by
    simp [SourceLocationIter.next, hget]
  induction n with
  | zero => exact ⟨rfl, by simp [iterStates, hstep]⟩
  | succ n ih =>
    have hstate : iterStates ⟨f, some i⟩ (n + 1) = ⟨f, some i⟩ := by
      have : iterStates ⟨f, some i⟩ (n + 1) = (iterStates ⟨f, some i⟩ n).next.2 := rfl
      rw [this, ih.1, hstep]
    exact ⟨hstate, by rw [hstate, hstep]⟩

/-- Claim C1 (code bug): for a `DW_AT_high_pc` attribute in `DebugAddrIndex`
form, the claim requires the parsed `high_pc` to be the resolved address with
`low_pc` untouched; the code instead assigns the resolved address to
`low_pc` (`dwarf.rs`, line 557).  At the failing input — `low_pc = 4096` by
`Addr`, `high_pc` by `DebugAddrIndex 0` resolving to 8192 — the loop ends
with `low_pc = 8192` and no `high_pc`, so the DIE yields no range at all,
where the claim requires the single range `[4096, 8192)`. -/
theorem c1_high_pc_addr_index_clobbers_low_pc :
    parseRangesLoop unitC1 [(.lowPc, .addr 4096), (.highPc, .debugAddrIndex 0)]
      ⟨none, none, none, none, none, []⟩ =
      .ok ⟨none, none, some 8192, none, none, []⟩ ∧
    parse_ranges unitC1 [(.lowPc, .addr 4096), (.highPc, .debugAddrIndex 0)] [] =
      .ok ([], (none, none)) := by
  exact ⟨by decide, by decide⟩

/-- Claim C8: when the ranges attributes produce an empty buffer and a range
is synthesised from `low_pc` / `high_pc` (with `low_pc` surviving the zero
check), `low_pc = high_pc` yields no ranges and no error,
`low_pc > high_pc` fails with `InvertedFunctionRange`, and otherwise exactly
the single range `[low_pc, high_pc)` is produced. -/
theorem c8_range_synthesis (u : UnitModel) (attrs : List (AttrName × AttrValue))
    (st : RangesLoopState) (l h : Nat)
    (hloop : parseRangesLoop u attrs ⟨none, none, none, none, none, []⟩ = .ok st)
    (hbuf : st.range_buf = [])
    (hl : st.low_pc = some l)
    (hl0 : l ≠ 0 ∨ u.relocatable = true)
    (hh : st.high_pc = some h ∨
      (st.high_pc = none ∧ ∃ rel, st.high_pc_rel = some rel ∧ h = u64add l rel)) :
    parse_ranges u attrs [] =
      (if l = h then .ok ([], (st.call_line, st.call_file))
       else if h < l then .error .invertedFunctionRange
       else .ok ([⟨l, h⟩], (st.call_line, st.call_file))) := by
  unfold parse_ranges
  rw [hloop]
  rcases hh with hh | ⟨hh, rel, hrel, hrelval⟩
  · simp [parseRangesPost, hbuf, hl, hl0, hh, parseRangesCheck]
  · subst hrelval
    simp [parseRangesPost, hbuf, hl, hl0, hh, hrel, parseRangesCheck]

/-- Witness for C8: a DIE carrying `low_pc 4096` and an unsigned-constant
`high_pc` of 16 synthesises exactly the range `[4096, 4112)`. -/
theorem c8_range_synthesis_witness :
    parse_ranges unitC1 [(.lowPc, .addr 4096), (.highPc, .udata 16)] [] =
      .ok ([⟨4096, 4112⟩], (none, none)) := by
  have h := c8_range_synthesis unitC1
      [(.lowPc, .addr 4096), (.highPc, .udata 16)]
      ⟨none, none, some 4096, none, some 16, []⟩ 4096 4112
      (by decide) rfl rfl (Or.inl (by decide))
      (Or.inr ⟨rfl, 16, rfl, by decide⟩)
  simpa using h

/-- On headers sorted strictly ascending, the binary-search result of the
source and the count of headers at most the target (the spec's predecessor
description) agree: an exact hit at `i` means `i + 1` such headers, a miss at
`i` means exactly `i` of them. -/
theorem bsearch_filter_split (target : Nat) :
    ∀ keys : List Nat, keys.Pairwise (· < ·) →
      (∃ i, binarySearchByKey keys target = .ok i ∧
        (keys.filter fun k => decide (k ≤ target)).length = i + 1) ∨
      (∃ i, binarySearchByKey keys target = .error i ∧
        (keys.filter fun k => decide (k ≤ target)).length = i) := by
  intro keys
  induction keys with
  | nil => intro _; right; exact ⟨0, rfl, rfl⟩
  | cons k ks ih =>
    intro hp
    have hk : ∀ x ∈ ks, k < x := (List.pairwise_cons.mp hp).1
    have hp2 := (List.pairwise_cons.mp hp).2
    rcases Nat.lt_trichotomy k target with hlt | heq | hgt
    · have hfil : ((k :: ks).filter fun x => decide (x ≤ target)) =
          k :: (ks.filter fun x => decide (x ≤ target)) := by
        rw [List.filter_cons_of_pos]
        simpa using Nat.le_of_lt hlt
      rcases ih hp2 with ⟨i, hok, hlen⟩ | ⟨i, herr, hlen⟩
      · left
        refine ⟨i + 1, ?_, ?_⟩
        · simp [binarySearchByKey, hlt, hok]
        · rw [hfil]
          simp [hlen]
      · right
        refine ⟨i + 1, ?_, ?_⟩
        · simp [binarySearchByKey, hlt, herr]
        · rw [hfil]
          simp [hlen]
    · subst heq
      left
      refine ⟨0, ?_, ?_⟩
      · simp [binarySearchByKey]
      · have htail : (ks.filter fun x => decide (x ≤ k)) = [] := by
          refine List.filter_eq_nil_iff.mpr ?_
          intro a ha
          simpa using Nat.not_le.mpr (hk a ha)
        rw [List.filter_cons_of_pos, htail]
        · rfl
        · simp
    · right
      refine ⟨0, ?_, ?_⟩
      · have h1 : ¬k < target := Nat.not_lt.mpr (Nat.le_of_lt hgt)
        have h2 : ¬k = target := by omega
        simp [binarySearchByKey, h1, h2]
      · have htail : (ks.filter fun x => decide (x ≤ target)) = [] := by
          refine List.filter_eq_nil_iff.mpr ?_
          intro a ha
          have h3 : target < a := Nat.lt_trans hgt (hk a ha)
          simpa using Nat.not_le.mpr h3
        rw [List.filter_cons_of_neg (by simpa using Nat.not_le.mpr hgt), htail]
        rfl

/-- Claim C9: on strictly ascending unit headers, `find_unit_offset` agrees
with the spec's description — an offset strictly before the first header
fails with `InvalidUnitRef(offset)`, and otherwise the predecessor header
(the last one with offset ≤ the probe) is selected, its unit fetched and the
offset converted, conversion failure again yielding `InvalidUnitRef`. -/
theorem c9_find_unit_offset (info : InfoModel) (off : Nat)
    (hs : info.headers.Pairwise (· < ·)) :
    find_unit_offset info off = findUnitOffsetSpec info off ∧
    (∀ first, info.headers.head? = some first → off < first →
      find_unit_offset info off = .error (.invalidUnitRef off)) := by
  have hmain : find_unit_offset info off = findUnitOffsetSpec info off := by
    rcases bsearch_filter_split off info.headers hs with ⟨i, hok, hlen⟩ | ⟨i, herr, hlen⟩
    · unfold find_unit_offset findUnitOffsetSpec
      rw [hok, hlen]
    · unfold find_unit_offset findUnitOffsetSpec
      rw [herr, hlen]
      cases i with
      | zero => rfl
      | succ n => rfl
  refine ⟨hmain, ?_⟩
  intro first hfirst hofflt
  rw [hmain]
  cases hh : info.headers with
  | nil => rw [hh] at hfirst; cases hfirst
  | cons a t =>
    rw [hh] at hfirst
    have ha : a = first := by simpa using hfirst
    subst ha
    have hs2 : (a :: t).Pairwise (· < ·) := hh ▸ hs
    have hfil : ((a :: t).filter fun k => decide (k ≤ off)) = [] := by
      refine List.filter_eq_nil_iff.mpr ?_
      intro x hx
      rcases List.mem_cons.mp hx with rfl | hx2
      · simpa using Nat.not_le.mpr hofflt
      · have h1 : a < x := (List.pairwise_cons.mp hs2).1 x hx2
        simpa using Nat.not_le.mpr (Nat.lt_trans hofflt h1)
    unfold findUnitOffsetSpec
    rw [hh, hfil]
    rfl

/-- Witness for C9: probing between the two headers of the concrete registry
selects the predecessor and converts the offset. -/
theorem c9_find_unit_offset_witness :
    find_unit_offset infoC9 150 = findUnitOffsetSpec infoC9 150 ∧
    find_unit_offset infoC9 150 = .ok (0, 50) := by
  exact ⟨(c9_find_unit_offset infoC9 150 (by decide)).1, by decide⟩

/-- Claim C5 (code bug): when an `end_sequence` row arrives at address `A`
with accumulated rows, the code closes the sequence with
`end = if A < prev_address then prev_address + 1 else A`, which differs from
the claimed `max(A, prev_address + 1)` exactly at `A = prev_address`: at the
failing input below (`A = prev_address = 4104`) the code produces `end = 4104`
— not covering the last row, contrary to the defensive-coverage comment in
the source — while the claim requires `4105`. -/
theorem c5_end_sequence_at_prev_address :
    prepare lineRowsC5 =
      [{ start := 4096, seqEnd := 4104,
         rows := [⟨4096, 1, some 10, some 8⟩, ⟨4104, 1, some 11, some 0⟩] }] ∧
    (4104 : Nat) ≠ max 4104 (4104 + 1) := by
  exact ⟨by decide, by decide⟩

/-- While the skip marker is set, events visited strictly deeper than it
only update the depth. -/
theorem walk_skipped (u : UnitModel) (d : Int) :
    ∀ (es : List DieEvent) (s : WalkState), s.skippedDepth = some d →
      (∀ x ∈ eventDepths s.depth es, d < x) →
      walkEvents u es s = ({ s with depth := s.depth + sumMovements es }, none) := by
  intro es
  induction es with
  | nil =>
    intro s _ _
    simp [walkEvents, sumMovements]
  | cons e es ih =>
    intro s hsk hdeep
    have hd : d < s.depth + e.movement := by
      have h1 := hdeep (s.depth + e.movement)
      simp [eventDepths] at h1
      exact h1
    have hstep : functionsStep u s e = .ok { s with depth := s.depth + e.movement } := by
      simp [functionsStep, hsk, hd]
    have hrec := ih { s with depth := s.depth + e.movement } (by simpa using hsk)
      (by
        intro x hx
        exact hdeep x (by simpa [eventDepths] using Or.inr hx))
    calc walkEvents u (e :: es) s
        = walkEvents u es { s with depth := s.depth + e.movement } := by
          simp [walkEvents, hstep]
      _ = ({ s with depth := s.depth + e.movement + sumMovements es }, none) := by
          simpa using hrec
      _ = ({ s with depth := s.depth + sumMovements (e :: es) }, none) := by
          simp [sumMovements]
          ring_nf

/-- Claim C6: a subprogram DIE whose range buffer comes out empty sets the
skip marker to its depth and is skipped (beyond the usual stack flush,
nothing changes), and every DIE visited strictly deeper afterwards — live
inlined children included — contributes nothing: no function is pushed or
emitted and the dedup set is untouched, for the whole deeper stretch. -/
theorem c6_empty_ranges_prune_subtree (u : UnitModel) (s : WalkState)
    (e : DieEvent) (es : List DieEvent) (t : Option Nat × Option Nat)
    (hsk : s.skippedDepth = none ∨
      ∃ k, s.skippedDepth = some k ∧ s.depth + e.movement ≤ k)
    (htag : e.tag = .subprogram)
    (hpr : parse_ranges u e.attrs [] = .ok ([], t))
    (hdeep : ∀ x ∈ eventDepths (s.depth + e.movement) es,
      s.depth + e.movement < x) :
    walkEvents u (e :: es) s =
      ({ depth := s.depth + e.movement + sumMovements es
         skippedDepth := some (s.depth + e.movement)
         functions := (stackFlush (s.depth + e.movement) s.stack s.functions).2
         stack := (stackFlush (s.depth + e.movement) s.stack s.functions).1
         seen := s.seen }, none) := by
  have hbody : stepBody u
      { s with depth := s.depth + e.movement, skippedDepth := none } e =
      .ok { s with
              depth := s.depth + e.movement
              skippedDepth := some (s.depth + e.movement)
              stack := (stackFlush (s.depth + e.movement) s.stack s.functions).1
              functions := (stackFlush (s.depth + e.movement) s.stack s.functions).2 } := by
    simp [stepBody, htag, tagInline, hpr]
  have hstep : functionsStep u s e =
      .ok { s with
              depth := s.depth + e.movement
              skippedDepth := some (s.depth + e.movement)
              stack := (stackFlush (s.depth + e.movement) s.stack s.functions).1
              functions := (stackFlush (s.depth + e.movement) s.stack s.functions).2 } := by
    rcases hsk with hsk | ⟨k, hsk, hk⟩
    · simpa [functionsStep, hsk] using hbody
    · have hnk : ¬k < s.depth + e.movement := not_lt.mpr hk
      simpa [functionsStep, hsk, hnk] using hbody
  have hrest := walk_skipped u (s.depth + e.movement) es
    { s with
        depth := s.depth + e.movement
        skippedDepth := some (s.depth + e.movement)
        stack := (stackFlush (s.depth + e.movement) s.stack s.functions).1
        functions := (stackFlush (s.depth + e.movement) s.stack s.functions).2 }
    rfl (by simpa using hdeep)
  calc walkEvents u (e :: es) s
      = walkEvents u es
          { s with
              depth := s.depth + e.movement
              skippedDepth := some (s.depth + e.movement)
              stack := (stackFlush (s.depth + e.movement) s.stack s.functions).1
              functions := (stackFlush (s.depth + e.movement) s.stack s.functions).2 } := by
        simp [walkEvents, hstep]
    _ = _ := by
        rw [hrest]

/-- Witness for C6: scenario S3 — the eliminated stub with a live inlined
child — prunes the whole subtree, and the unit emits no functions. -/
theorem c6_empty_ranges_prune_subtree_witness :
    walkEvents plainUnit [eventStub, eventStubChild] ⟨0, none, [], [], []⟩ =
      (⟨2, some 1, [], [], []⟩, none) ∧
    sessionFunctions [.ok (plainUnit, [eventStub, eventStubChild])] [] = [] := by
  constructor
  · have h := c6_empty_ranges_prune_subtree plainUnit ⟨0, none, [], [], []⟩
      eventStub [eventStubChild] (none, none) (Or.inl rfl) rfl (by decide)
      (by decide)
    exact h
  · rfl

/-- Claim C3 counterexample: after yielding an error item the iterator is not
fused — the very next call yields a function from the following unit. -/
theorem c3_error_item_does_not_fuse :
    (fnIterNext fnIterC3).1 = some (.error .corruptedData) ∧
    (fnIterNext (fnIterNext fnIterC3).2).1 = some (.ok funcPlain) := by
  exact ⟨rfl, rfl⟩

/-- `fnIterLoop` yields `none` only by exhausting the units, which sets the
fused flag. -/
theorem fnIterLoop_none_finished :
    ∀ (us : List (Except DwarfErrorKind (UnitModel × List DieEvent)))
      (seen : List (Nat × Nat)),
      (fnIterLoop us seen).1 = none → ((fnIterLoop us seen).2).finished = true := by
  intro us
  induction us with
  | nil => intro seen _; rfl
  | cons unit us ih =>
    intro seen h
    match unit with
    | .error e => simp [fnIterLoop] at h
    | .ok (u, events) =>
      rcases hu : unitFunctions u events seen with ⟨res, seen2⟩
      match res with
      | .error err => simp [fnIterLoop, hu] at h
      | .ok (f :: fs) => simp [fnIterLoop, hu] at h
      | .ok [] =>
        have heq : fnIterLoop (.ok (u, events) :: us) seen = fnIterLoop us seen2 := by
          simp [fnIterLoop, hu]
        rw [heq] at h ⊢
        exact ih seen2 h

/-- A fused iterator keeps yielding `none` without changing state. -/
theorem fnIterNext_of_finished (s : FnIterState) (h : s.finished = true) :
    fnIterNext s = (none, s) := by
  simp [fnIterNext, h]

/-- A `none` result marks the iterator fused. -/
theorem fnIterNext_none_finished (s s1 : FnIterState)
    (h : fnIterNext s = (none, s1)) : s1.finished = true := by
  unfold fnIterNext at h
  by_cases hf : s.finished
  · simp [hf] at h
    rw [← h]
    exact hf
  · simp [hf] at h
    match hfns : s.fns with
    | f :: fs =>
      rw [hfns] at h
      simp at h
    | [] =>
      rw [hfns] at h
      simp at h
      have h1 : (fnIterLoop s.units s.seen).1 = none := by rw [h]
      have h2 := fnIterLoop_none_finished s.units s.seen h1
      rw [h] at h2
      exact h2

/-- Claim C3 amended: the iterator is fused with respect to finishing — after
a call has returned `None`, every subsequent call returns `None` and leaves
the state unchanged.  (After an *error* item it is not fused; the
counterexample shows the next call yielding a further function.) -/
theorem c3_amended_fused_after_none (s s1 : FnIterState)
    (h : fnIterNext s = (none, s1)) (n : Nat) :
    fnIterNext (fnIterStates s1 n) = (none, fnIterStates s1 n) := by
  have hf : s1.finished = true := fnIterNext_none_finished s s1 h
  have hconst : ∀ m, fnIterStates s1 m = s1 := by
    intro m
    induction m with
    | zero => rfl
    | succ m ih =>
      show (fnIterNext (fnIterStates s1 m)).2 = s1
      rw [ih, fnIterNext_of_finished s1 hf]
  rw [hconst n]
  exact fnIterNext_of_finished s1 hf

/-- Witness for the amended C3: a drained iterator stays at `None` for every
later call. -/
theorem c3_amended_fused_after_none_witness :
    fnIterNext ⟨[], [], [], false⟩ = (none, ⟨[], [], [], true⟩) ∧
    fnIterNext (fnIterStates ⟨[], [], [], true⟩ 5) =
      (none, fnIterStates ⟨[], [], [], true⟩ 5) := by
  exact ⟨rfl,
    c3_amended_fused_after_none ⟨[], [], [], false⟩ ⟨[], [], [], true⟩ rfl 5⟩

/-- Claim C4 counterexample: a function with two ranges starting at the same
address, both covered by one line row, is emitted with a line table whose two
adjacent records share `(file, line)`, have equal addresses (strict sorting
fails) and overlap — collapsing applies only within a single range. -/
theorem c4_counterexample :
    emittedLines (sessionFunctions [.ok (unitC4, [eventC4])] []) =
      [[⟨16, some 48, ⟨"d", "f"⟩, 10⟩, ⟨16, some 16, ⟨"d", "f"⟩, 10⟩]] ∧
    ¬ List.Chain' (fun a b : LineInfo => a.address < b.address)
        [⟨16, some 48, ⟨"d", "f"⟩, 10⟩, ⟨16, some 16, ⟨"d", "f"⟩, 10⟩] ∧
    ¬ List.Chain'
        (fun a b : LineInfo => a.address + (a.size.getD 0) ≤ b.address)
        [⟨16, some 48, ⟨"d", "f"⟩, 10⟩, ⟨16, some 16, ⟨"d", "f"⟩, 10⟩] ∧
    ¬ List.Chain' (fun a b : LineInfo => (a.file, a.line) ≠ (b.file, b.line))
        [⟨16, some 48, ⟨"d", "f"⟩, 10⟩, ⟨16, some 16, ⟨"d", "f"⟩, 10⟩] := by
  exact ⟨by decide, by norm_num [List.chain'_cons], by norm_num [List.chain'_cons],
    by norm_num [List.chain'_cons]⟩

/-- `niKeys` distributes over append. -/
theorem niKeys_append (a b : List Func) :
    niKeys (a ++ b) = niKeys a ++ niKeys b := by
  simp [niKeys, List.filter_append]

/-- An inline function contributes no dedup key. -/
theorem niKeys_cons_inline (f : Func) (l : List Func) (h : f.inline = true) :
    niKeys (f :: l) = niKeys l := by
  simp [niKeys, List.filter_cons, h]

/-- A non-inline function contributes its dedup key. -/
theorem niKeys_cons_noninline (f : Func) (l : List Func)
    (h : f.inline = false) : niKeys (f :: l) = funcKey f :: niKeys l := by
  simp [niKeys, List.filter_cons, h]

/-- Dropping a head function only shrinks the key list. -/
theorem niKeys_sublist_cons (f : Func) (l : List Func) :
    List.Sublist (niKeys l) (niKeys (f :: l)) := by
  cases hf : f.inline
  · rw [niKeys_cons_noninline f l hf]
    exact List.sublist_cons_self _ _
  · rw [niKeys_cons_inline f l hf]

/-- Replacing the head by a function with the same key and inline flag leaves
the key list unchanged. -/
theorem niKeys_congr_head (p q : Func) (l : List Func)
    (hi : p.inline = q.inline) (hk : funcKey p = funcKey q) :
    niKeys (p :: l) = niKeys (q :: l) := by
  cases hq : q.inline
  · rw [niKeys_cons_noninline p l (by rw [hi, hq]),
      niKeys_cons_noninline q l hq, hk]
  · rw [niKeys_cons_inline p l (by rw [hi, hq]), niKeys_cons_inline q l hq]

/-- Flushing only moves functions from the stack to the output or into a
parent's inlinees: the dedup keys of output-plus-stack after a flush form a
sublist of those before. -/
theorem stackFlushGo_keys :
    ∀ (fuel : Nat) (d : Int) (st : List (Int × Func)) (out : List Func),
      List.Sublist
        (niKeys ((stackFlushGo fuel d st out).2 ++
          ((stackFlushGo fuel d st out).1).map Prod.snd))
        (niKeys (out ++ st.map Prod.snd)) := by
  intro fuel
  induction fuel with
  | zero =>
    intro d st out
    cases st with
    | nil => simp [stackFlushGo]
    | cons hd tl => simp [stackFlushGo]
  | succ fuel ih =>
    intro d st out
    match st with
    | [] => simp [stackFlushGo]
    | (ed, f) :: rest =>
      by_cases hd : d ≤ ed
      · match rest with
        | (pd, parent) :: rest2 =>
          have hstep :
              stackFlushGo (fuel + 1) d ((ed, f) :: (pd, parent) :: rest2) out =
              stackFlushGo fuel d
                ((pd, { parent with inlinees := parent.inlinees ++ [f] }) ::
                  rest2) out := by
            simp [stackFlushGo, hd]
          rw [hstep]
          refine (ih d _ out).trans ?_
          rw [List.map_cons, List.map_cons, List.map_cons, niKeys_append,
            niKeys_append]
          refine List.Sublist.append_left ?_ _
          rw [niKeys_congr_head
            { parent with inlinees := parent.inlinees ++ [f] } parent _ rfl rfl]
          exact niKeys_sublist_cons f _
        | [] =>
          have hstep : stackFlushGo (fuel + 1) d [(ed, f)] out =
              ([], out ++ [f]) := by
            simp [stackFlushGo, hd]
          rw [hstep]
          simp
      · have hstep : stackFlushGo (fuel + 1) d ((ed, f) :: rest) out =
            ((ed, f) :: rest, out) := by
          simp [stackFlushGo, hd]
        rw [hstep]

/-- The `stackFlush` wrapper of `stackFlushGo_keys`. -/
theorem stackFlush_keys (d : Int) (st : List (Int × Func)) (out : List Func) :
    List.Sublist
      (niKeys ((stackFlush d st out).2 ++ ((stackFlush d st out).1).map Prod.snd))
      (niKeys (out ++ st.map Prod.snd)) :=
  stackFlushGo_keys st.length d st out

/-- Every successful `stepBody` result has one of three shapes: a skip-like
step (flush only), a non-inline push registering a fresh key, or an inline
push on top of a parent whose key and flag are preserved. -/
theorem stepBody_shape (u : UnitModel) (s : WalkState) (e : DieEvent)
    (s2 : WalkState) (h : stepBody u s e = .ok s2) :
    (s2.functions = (stackFlush s.depth s.stack s.functions).2 ∧
     s2.stack = (stackFlush s.depth s.stack s.functions).1 ∧
     s2.seen = s.seen) ∨
    (∃ f : Func, f.inline = false ∧ funcKey f ∉ s.seen ∧
      s2.functions = (stackFlush s.depth s.stack s.functions).2 ∧
      s2.stack = (s.depth, f) :: (stackFlush s.depth s.stack s.functions).1 ∧
      s2.seen = funcKey f :: s.seen) ∨
    (∃ (f p p2 : Func) (pd : Int) (rest : List (Int × Func)),
      f.inline = true ∧
      (stackFlush s.depth s.stack s.functions).1 = (pd, p) :: rest ∧
      p2.inline = p.inline ∧ funcKey p2 = funcKey p ∧
      s2.functions = (stackFlush s.depth s.stack s.functions).2 ∧
      s2.stack = (s.depth, f) :: (pd, p2) :: rest ∧
      s2.seen = s.seen) := by
  unfold stepBody at h
  simp only [] at h
  split at h
  · left
    injection h with h2
    subst h2
    exact ⟨rfl, rfl, rfl⟩
  · rename_i inline hti
    split at h
    · cases h
    · rename_i ranges callTuple hpr
      split at h
      · left
        injection h with h2
        subst h2
        exact ⟨rfl, rfl, rfl⟩
      · split at h
        · left
          injection h with h2
          subst h2
          exact ⟨rfl, rfl, rfl⟩
        · rename_i hdup
          cases inline with
          | false =>
            simp only [Bool.false_eq_true, if_false, ite_false] at h
            injection h with h2
            subst h2
            right; left
            refine ⟨_, rfl, ?_, rfl, rfl, rfl⟩
            intro hmem
            exact hdup ⟨rfl, hmem⟩
          | true =>
            simp only [if_true, ite_true] at h
            split at h
            · cases h
            · rename_i pd parent rest hstk
              injection h with h2
              subst h2
              right; right
              refine ⟨_, parent, _, pd, rest, rfl, hstk, ?_, ?_, rfl, rfl, rfl⟩
              · rcases callTuple with ⟨cl, cf⟩
                cases cl <;> cases cf <;> rfl
              · rcases callTuple with ⟨cl, cf⟩
                cases cl <;> cases cf <;> rfl

/-- `stepBody` preserves the dedup invariant. -/
theorem stepBody_inv (u : UnitModel) (s : WalkState) (e : DieEvent)
    (s2 : WalkState) (seen0 : List (Nat × Nat))
    (h : stepBody u s e = .ok s2) (hInv : WalkInv seen0 s) :
    WalkInv seen0 s2 := by
  obtain ⟨hN, hM, hS⟩ := hInv
  have hflkeys := stackFlush_keys s.depth s.stack s.functions
  have hflN : (niKeys ((stackFlush s.depth s.stack s.functions).2 ++
      ((stackFlush s.depth s.stack s.functions).1).map Prod.snd)).Nodup :=
    hN.sublist hflkeys
  have hflM : ∀ k ∈ niKeys ((stackFlush s.depth s.stack s.functions).2 ++
      ((stackFlush s.depth s.stack s.functions).1).map Prod.snd),
      k ∈ s.seen ∧ k ∉ seen0 := fun k hk => hM k (hflkeys.subset hk)
  rcases stepBody_shape u s e s2 h with
    ⟨hf, hst, hsn⟩ | ⟨f, hfi, hfresh, hf, hst, hsn⟩ |
    ⟨f, p, p2, pd, rest, hfi, hstk, hpi, hpk, hf, hst, hsn⟩
  · refine ⟨?_, ?_, ?_⟩
    · rw [hf, hst]; exact hflN
    · intro k hk
      rw [hf, hst] at hk
      rw [hsn]
      exact hflM k hk
    · intro k hk
      rw [hsn]
      exact hS k hk
  · have hL : niKeys (s2.functions ++ s2.stack.map Prod.snd) =
        niKeys ((stackFlush s.depth s.stack s.functions).2) ++
          funcKey f :: niKeys
            (((stackFlush s.depth s.stack s.functions).1).map Prod.snd) := by
      rw [hf, hst, List.map_cons, niKeys_append, niKeys_cons_noninline f _ hfi]
    refine ⟨?_, ?_, ?_⟩
    · rw [hL, List.nodup_middle, List.nodup_cons]
      constructor
      · intro hmem
        rw [← niKeys_append] at hmem
        exact hfresh (hflM _ hmem).1
      · rw [← niKeys_append]
        exact hflN
    · intro k hk
      rw [hL] at hk
      rw [hsn]
      rcases List.mem_append.mp hk with hk | hk
      · have hk2 : k ∈ niKeys ((stackFlush s.depth s.stack s.functions).2 ++
            ((stackFlush s.depth s.stack s.functions).1).map Prod.snd) := by
          rw [niKeys_append]
          exact List.mem_append.mpr (Or.inl hk)
        exact ⟨List.mem_cons_of_mem _ (hflM k hk2).1, (hflM k hk2).2⟩
      · rcases List.mem_cons.mp hk with rfl | hk
        · refine ⟨List.mem_cons_self _ _, ?_⟩
          intro hk0
          exact hfresh (hS _ hk0)
        · have hk2 : k ∈ niKeys ((stackFlush s.depth s.stack s.functions).2 ++
              ((stackFlush s.depth s.stack s.functions).1).map Prod.snd) := by
            rw [niKeys_append]
            exact List.mem_append.mpr (Or.inr hk)
          exact ⟨List.mem_cons_of_mem _ (hflM k hk2).1, (hflM k hk2).2⟩
    · intro k hk
      rw [hsn]
      exact List.mem_cons_of_mem _ (hS k hk)
  · have hL : niKeys (s2.functions ++ s2.stack.map Prod.snd) =
        niKeys ((stackFlush s.depth s.stack s.functions).2 ++
          ((stackFlush s.depth s.stack s.functions).1).map Prod.snd) := by
      rw [hf, hst, List.map_cons, List.map_cons, niKeys_append,
        niKeys_cons_inline f _ hfi, niKeys_congr_head p2 p _ hpi hpk,
        hstk, List.map_cons, niKeys_append]
    refine ⟨?_, ?_, ?_⟩
    · rw [hL]; exact hflN
    · intro k hk
      rw [hL] at hk
      rw [hsn]
      exact hflM k hk
    · intro k hk
      rw [hsn]
      exact hS k hk

/-- `functionsStep` preserves the dedup invariant. -/
theorem functionsStep_inv (u : UnitModel) (s : WalkState) (e : DieEvent)
    (s2 : WalkState) (seen0 : List (Nat × Nat))
    (h : functionsStep u s e = .ok s2) (hInv : WalkInv seen0 s) :
    WalkInv seen0 s2 := by
  unfold functionsStep at h
  simp only [] at h
  split at h
  · split at h
    · injection h with h2
      subst h2
      exact hInv
    · exact stepBody_inv u _ e s2 seen0 h hInv
  · exact stepBody_inv u _ e s2 seen0 h hInv

/-- The walk preserves the dedup invariant up to the state it returns (the
state before a failing entry included). -/
theorem walkEvents_inv (u : UnitModel) :
    ∀ (events : List DieEvent) (s : WalkState) (seen0 : List (Nat × Nat)),
      WalkInv seen0 s → WalkInv seen0 (walkEvents u events s).1 := by
  intro events
  induction events with
  | nil => intro s seen0 hInv; exact hInv
  | cons e es ih =>
    intro s seen0 hInv
    rw [show walkEvents u (e :: es) s =
        (match functionsStep u s e with
         | .ok s2 => walkEvents u es s2
         | .error err => (s, some err)) from rfl]
    rcases hstep : functionsStep u s e with err | s2
    · exact hInv
    · exact ih s2 seen0 (functionsStep_inv u s e s2 seen0 hstep hInv)

/-- The flushed output of a walk state carries distinct, registered keys. -/
theorem walkFinish_keys (s : WalkState) :
    List.Sublist (niKeys (walkFinish s))
      (niKeys (s.functions ++ s.stack.map Prod.snd)) := by
  have h := stackFlush_keys 0 s.stack s.functions
  refine List.Sublist.trans ?_ h
  rw [niKeys_append]
  exact List.sublist_append_left _ _

/-- `okFns` splits over a block of successful items. -/
theorem okFns_append_map (fns : List Func)
    (l : List (Except DwarfErrorKind Func)) :
    okFns (fns.map .ok ++ l) = fns ++ okFns l := by
  induction fns with
  | nil => rfl
  | cons f fs ih => simp [okFns, ih]

/-- The emission invariant: starting from any `seen_ranges` set, the keys of
the emitted non-inline functions are distinct and none of them was in the
starting set. -/
theorem sessionFunctions_inv :
    ∀ (units : List (Except DwarfErrorKind (UnitModel × List DieEvent)))
      (seen : List (Nat × Nat)),
      (niKeys (okFns (sessionFunctions units seen))).Nodup ∧
      (∀ k ∈ niKeys (okFns (sessionFunctions units seen)), k ∉ seen) := by
  intro units
  induction units with
  | nil => intro seen; exact ⟨List.nodup_nil, by intro k hk; cases hk⟩
  | cons unit rest ih =>
    intro seen
    match unit with
    | .error e =>
      rw [show sessionFunctions (.error e :: rest) seen =
          .error e :: sessionFunctions rest seen from rfl]
      exact ih seen
    | .ok (u, events) =>
      have hwalk := walkEvents_inv u events ⟨0, none, [], [], seen⟩ seen
        ⟨by simp [niKeys], by simp [niKeys], fun k hk => hk⟩
      rcases hu : unitFunctions u events seen with ⟨res, seen2⟩
      have hseen2 : seen2 = (walkEvents u events ⟨0, none, [], [], seen⟩).1.seen := by
        unfold unitFunctions at hu
        simp only [] at hu
        rcases h2 : (walkEvents u events ⟨0, none, [], [], seen⟩).2 with _ | err
        · rw [h2] at hu
          simp only [] at hu
          injection hu with h3 h4
          exact h4.symm
        · rw [h2] at hu
          simp only [] at hu
          injection hu with h3 h4
          exact h4.symm
      have hmono : ∀ k ∈ seen, k ∈ seen2 := by
        rw [hseen2]
        exact hwalk.2.2
      match res with
      | .error err =>
        rw [show sessionFunctions (.ok (u, events) :: rest) seen =
            (match unitFunctions u events seen with
             | (.error err, seen2) => .error err :: sessionFunctions rest seen2
             | (.ok fns, seen2) => fns.map .ok ++ sessionFunctions rest seen2)
            from rfl, hu]
        refine ⟨(ih seen2).1, ?_⟩
        intro k hk hk0
        exact (ih seen2).2 k hk (hmono k hk0)
      | .ok fns =>
        have hfns : fns = walkFinish (walkEvents u events ⟨0, none, [], [], seen⟩).1 := by
          unfold unitFunctions at hu
          simp only [] at hu
          rcases h2 : (walkEvents u events ⟨0, none, [], [], seen⟩).2 with _ | err
          · rw [h2] at hu
            simp only [] at hu
            injection hu with h3 h4
            injection h3 with h3
            exact h3.symm
          · rw [h2] at hu
            simp only [] at hu
            injection hu with h3 h4
            cases h3
        have hkeys : ∀ k ∈ niKeys fns, k ∈ seen2 ∧ k ∉ seen := by
          intro k hk
          rw [hfns] at hk
          have hk2 := (walkFinish_keys _).subset hk
          rw [hseen2]
          exact hwalk.2.1 k hk2
        have hnodup : (niKeys fns).Nodup := by
          rw [hfns]
          exact hwalk.1.sublist (walkFinish_keys _)
        rw [show sessionFunctions (.ok (u, events) :: rest) seen =
            (match unitFunctions u events seen with
             | (.error err, seen2) => .error err :: sessionFunctions rest seen2
             | (.ok fns, seen2) => fns.map .ok ++ sessionFunctions rest seen2)
            from rfl, hu, okFns_append_map, niKeys_append]
        constructor
        · refine List.Nodup.append hnodup (ih seen2).1 ?_
          intro k hk1 hk2
          exact (ih seen2).2 k hk2 (hkeys k hk1).1
        · intro k hk hk0
          rcases List.mem_append.mp hk with hk | hk
          · exact (hkeys k hk).2 hk0
          · exact (ih seen2).2 k hk (hmono k hk0)

/-- Claim C7: across the entire emission of a function-iterator run, no two
emitted top-level (non-inline) functions share the same `(address, size)`
pair — the key list of the emitted non-inline functions has no duplicate.
In particular, two units defining subprograms with identical adjusted
address and size yield exactly one emitted function. -/
theorem c7_no_duplicate_toplevel
    (units : List (Except DwarfErrorKind (UnitModel × List DieEvent))) :
    (niKeys (okFns (sessionFunctions units []))).Nodup :=
  (sessionFunctions_inv units []).1

/-- Applying the module's `offset` with a zero offset is the identity below
the 64-bit bound. -/
theorem offset_zero (a : Nat) (h : a < 2 ^ 64) : offset a 0 = a := by
  unfold offset
  rw [Int.sub_zero, Int.emod_eq_of_lt (by exact_mod_cast Nat.zero_le a)
    (by exact_mod_cast h)]
  simp

/-- Wrapping addition below the bound is plain addition. -/
theorem u64add_eq (a b : Nat) (h : a + b < 2 ^ 64) : u64add a b = a + b := by
  unfold u64add
  exact Nat.mod_eq_of_lt h

/-- Wrapping subtraction below the bound is plain truncated subtraction. -/
theorem u64sub_eq (a b : Nat) (hba : b ≤ a) (ha : a < 2 ^ 64) :
    u64sub a b = a - b := by
  unfold u64sub
  rw [Nat.mod_eq_of_lt (lt_of_le_of_lt hba ha)]
  have h1 : a + 2 ^ 64 - b = (a - b) + 2 ^ 64 := by omega
  rw [h1, Nat.add_mod_right, Nat.mod_eq_of_lt (by omega)]

/-- In a linked chain, the head's address is below every later address. -/
theorem rowChain_lt : ∀ (l : List DwarfRow) (a : DwarfRow),
    List.Chain' rowLink (a :: l) → ∀ b ∈ l, a.address < b.address := by
  intro l
  induction l with
  | nil => intro a _ b hb; cases hb
  | cons c l ih =>
    intro a h b hb
    have hac : rowLink a c := (List.chain'_cons.mp h).1
    rcases List.mem_cons.mp hb with rfl | hb2
    · exact hac.1
    · exact Nat.lt_trans hac.1 (ih c (List.chain'_cons.mp h).2 b hb2)

/-- The collapsing loop of `resolve_lines`, on a linked row slice with a zero
address offset and 32-bit-bounded addresses, produces records that are
strictly address-sorted, non-overlapping, and pairwise key-distinct between
neighbours; the first record keeps the pending record's address, file and
line. -/
theorem resolveLoop_chain (u : UnitModel) (h0 : u.address_offset = 0)
    (rend : Nat) :
    ∀ (rows : List DwarfRow) (lastFile : Nat) (lastInfo : LineInfo),
      lastInfo.file = (resolve_file u lastFile).getD default →
      (∀ r ∈ rows, lastInfo.address < r.address) →
      (∀ r rs2, rows = r :: rs2 →
        ∃ s, lastInfo.size = some s ∧ lastInfo.address + s = r.address) →
      List.Chain' rowLink rows →
      (∀ r ∈ rows, r.address < 2 ^ 32) →
      lastInfo.address < 2 ^ 32 →
      (∀ i ∈ lastFile :: rows.map DwarfRow.file_index,
        ∀ j ∈ lastFile :: rows.map DwarfRow.file_index,
        (resolve_file u i).getD default = (resolve_file u j).getD default →
          i = j) →
      List.Chain' LineChainOk (resolveLoop u rend lastFile lastInfo rows) ∧
      ∃ hd tl, resolveLoop u rend lastFile lastInfo rows = hd :: tl ∧
        hd.address = lastInfo.address ∧ hd.file = lastInfo.file ∧
        hd.line = lastInfo.line := by
  intro rows
  induction rows with
  | nil =>
    intro lastFile lastInfo hfile hlt hlink hchain hb hlb hinj
    exact ⟨List.chain'_singleton _, _, [], rfl, rfl, rfl, rfl⟩
  | cons row rest ih =>
    intro lastFile lastInfo hfile hlt hlink hchain hb hlb hinj
    obtain ⟨s, hsome, hs⟩ := hlink row rest rfl
    have hrowb : row.address < 2 ^ 32 := hb row (List.mem_cons_self _ _)
    have hbtail : ∀ r ∈ rest, r.address < 2 ^ 32 :=
      fun r hr => hb r (List.mem_cons_of_mem _ hr)
    by_cases hc : lastFile = row.file_index ∧ lastInfo.line = row.line.getD 0
    · rw [show resolveLoop u rend lastFile lastInfo (row :: rest) =
          resolveLoop u rend lastFile
            { lastInfo with
                size := lastInfo.size.map fun s2 => u64add s2 (row.size.getD 0) }
            rest from by simp [resolveLoop, hc]]
      obtain ⟨hch, hd, tl, hout, hha, hhf, hhl⟩ :=
        ih lastFile
          { lastInfo with
              size := lastInfo.size.map fun s2 => u64add s2 (row.size.getD 0) }
          hfile
          (fun r hr => hlt r (List.mem_cons_of_mem _ hr))
          (by
            intro r2 rs3 hrr
            subst hrr
            have hrel : rowLink row r2 := (List.chain'_cons.mp hchain).1
            have hr2b : r2.address < 2 ^ 32 :=
              hbtail r2 (List.mem_cons_self _ _)
            refine ⟨u64add s (row.size.getD 0), ?_, ?_⟩
            · show (lastInfo.size.map fun s2 => u64add s2 (row.size.getD 0)) =
                some (u64add s (row.size.getD 0))
              rw [hsome]
              rfl
            · show lastInfo.address + u64add s (row.size.getD 0) = r2.address
              rw [hrel.2]
              show lastInfo.address + u64add s (r2.address - row.address) =
                r2.address
              rw [u64add_eq s (r2.address - row.address) (by omega)]
              have h1 := hrel.1
              omega)
          hchain.tail
          hbtail
          hlb
          (by
            intro i hi j hj heq
            have hmem : ∀ x, x ∈ lastFile :: rest.map DwarfRow.file_index →
                x ∈ lastFile :: (row :: rest).map DwarfRow.file_index := by
              intro x hx
              rcases List.mem_cons.mp hx with rfl | hx2
              · exact List.mem_cons_self _ _
              · rw [List.map_cons]
                exact List.mem_cons_of_mem _ (List.mem_cons_of_mem _ hx2)
            exact hinj i (hmem i hi) j (hmem j hj) heq)
      exact ⟨hch, hd, tl, hout, hha, hhf, hhl⟩
    · rw [show resolveLoop u rend lastFile lastInfo (row :: rest) =
          lastInfo :: resolveLoop u rend row.file_index
            { address := offset row.address u.address_offset
              size := row.size
              file := (resolve_file u row.file_index).getD default
              line := row.line.getD 0 } rest from by simp [resolveLoop, hc]]
      have haddr : offset row.address u.address_offset = row.address := by
        rw [h0]
        exact offset_zero _ (lt_trans hrowb (by norm_num))
      obtain ⟨hch, hd, tl, hout, hha, hhf, hhl⟩ :=
        ih row.file_index
          { address := offset row.address u.address_offset
            size := row.size
            file := (resolve_file u row.file_index).getD default
            line := row.line.getD 0 }
          rfl
          (by
            intro r hr
            show offset row.address u.address_offset < r.address
            rw [haddr]
            exact rowChain_lt rest row hchain r hr)
          (by
            intro r2 rs3 hrr
            subst hrr
            have hrel : rowLink row r2 := (List.chain'_cons.mp hchain).1
            refine ⟨r2.address - row.address, ?_, ?_⟩
            · show row.size = some (r2.address - row.address)
              exact hrel.2
            · show offset row.address u.address_offset +
                (r2.address - row.address) = r2.address
              rw [haddr]
              have h1 := hrel.1
              omega)
          hchain.tail
          hbtail
          (by
            show offset row.address u.address_offset < 2 ^ 32
            rw [haddr]
            exact hrowb)
          (by
            intro i hi j hj heq
            have hmem : ∀ x, x ∈ row.file_index :: rest.map DwarfRow.file_index →
                x ∈ lastFile :: (row :: rest).map DwarfRow.file_index := by
              intro x hx
              rw [List.map_cons]
              exact List.mem_cons_of_mem _ hx
            exact hinj i (hmem i hi) j (hmem j hj) heq)
      rw [hout]
      constructor
      · refine List.chain'_cons.mpr ⟨?_, by rw [← hout]; exact hch⟩
        refine ⟨?_, ?_, ?_⟩
        · rw [hha]
          show lastInfo.address < offset row.address u.address_offset
          rw [haddr]
          exact hlt row (List.mem_cons_self _ _)
        · rw [hha, hsome]
          show lastInfo.address + s ≤ offset row.address u.address_offset
          rw [haddr]
          omega
        · intro heq
          have hfileq : lastInfo.file =
              (resolve_file u row.file_index).getD default := by
            have h2 := congrArg Prod.fst heq
            simp only [] at h2
            rw [h2, hhf]
          have hlineq : lastInfo.line = row.line.getD 0 := by
            have h2 := congrArg Prod.snd heq
            simp only [] at h2
            rw [h2, hhl]
          refine hc ⟨?_, hlineq⟩
          refine hinj lastFile (List.mem_cons_self _ _) row.file_index ?_ ?_
          · rw [List.map_cons]
            exact List.mem_cons_of_mem _ (List.mem_cons_self _ _)
          · rw [← hfile, hfileq]
      · exact ⟨lastInfo, _, rfl, rfl, rfl, rfl⟩

/-- Claim C4 amended: within the lines resolved from a single range — linked,
strictly sorted rows whose first row covers the range begin, 32-bit-bounded
addresses, zero global address offset, and file resolution injective on the
involved indices — the records are strictly address-sorted, non-overlapping,
and adjacent records never share `(file, line)`.  Across multiple ranges, or
after inline splicing, these properties can all fail (see the
counterexample). -/
theorem c4_amended_per_range (u : UnitModel) (h0 : u.address_offset = 0)
    (range : DwarfRange) (first : DwarfRow) (rest : List DwarfRow)
    (hchain : List.Chain' rowLink (first :: rest))
    (hbegin : first.address ≤ range.rbegin)
    (hrest : ∀ r ∈ rest, range.rbegin < r.address)
    (hb : ∀ r ∈ first :: rest, r.address < 2 ^ 32)
    (hrb : range.rbegin < 2 ^ 32)
    (hinj : ∀ i ∈ (first :: rest).map DwarfRow.file_index,
      ∀ j ∈ (first :: rest).map DwarfRow.file_index,
      (resolve_file u i).getD default = (resolve_file u j).getD default →
        i = j) :
    List.Chain' LineChainOk (resolveLinesOne u (first :: rest) range) := by
  have haddr : offset range.rbegin u.address_offset = range.rbegin := by
    rw [h0]
    exact offset_zero _ (lt_trans hrb (by norm_num))
  have hres := resolveLoop_chain u h0 range.rend rest first.file_index
    { address := offset range.rbegin u.address_offset
      size := first.size.map fun s =>
        u64sub (u64add s first.address) range.rbegin
      file := (resolve_file u first.file_index).getD default
      line := first.line.getD 0 }
    rfl
    (by
      intro r hr
      show offset range.rbegin u.address_offset < r.address
      rw [haddr]
      exact hrest r hr)
    (by
      intro r2 rs3 hrr
      subst hrr
      have hrel : rowLink first r2 := (List.chain'_cons.mp hchain).1
      have hr2b : r2.address < 2 ^ 32 :=
        hb r2 (List.mem_cons_of_mem _ (List.mem_cons_self _ _))
      have hr2 : range.rbegin < r2.address := hrest r2 (List.mem_cons_self _ _)
      have hfb : first.address < 2 ^ 32 := hb first (List.mem_cons_self _ _)
      refine ⟨r2.address - range.rbegin, ?_, ?_⟩
      · show (first.size.map fun s =>
            u64sub (u64add s first.address) range.rbegin) =
          some (r2.address - range.rbegin)
        rw [hrel.2]
        show some (u64sub (u64add (r2.address - first.address) first.address)
          range.rbegin) = some (r2.address - range.rbegin)
        rw [u64add_eq (r2.address - first.address) first.address (by omega)]
        have h1 : r2.address - first.address + first.address = r2.address := by
          have h2 := hrel.1
          omega
        rw [h1, u64sub_eq r2.address range.rbegin (by omega) (by omega)]
      · show offset range.rbegin u.address_offset +
          (r2.address - range.rbegin) = r2.address
        rw [haddr]
        omega)
    hchain.tail
    (fun r hr => hb r (List.mem_cons_of_mem _ hr))
    (by
      show offset range.rbegin u.address_offset < 2 ^ 32
      rw [haddr]
      exact hrb)
    (by
      intro i hi j hj heq
      have hmem : ∀ x, x ∈ first.file_index :: rest.map DwarfRow.file_index →
          x ∈ (first :: rest).map DwarfRow.file_index := by
        intro x hx
        rw [List.map_cons]
        exact hx
      exact hinj i (hmem i hi) j (hmem j hj) heq)
  exact hres.1

/-- Witness for the amended C4: two linked rows with distinct files resolve,
over the range `[16, 32)`, to a strictly sorted, non-overlapping,
key-distinct record list. -/
theorem c4_amended_per_range_witness :
    List.Chain' LineChainOk
      (resolveLinesOne unitC4w
        [⟨16, 1, some 10, some 8⟩, ⟨24, 2, some 11, some 8⟩] ⟨16, 32⟩) := by
  refine c4_amended_per_range unitC4w rfl ⟨16, 32⟩ ⟨16, 1, some 10, some 8⟩
    [⟨24, 2, some 11, some 8⟩] ?_ (by decide) ?_ ?_ (by decide) ?_
  · exact List.chain'_cons.mpr ⟨⟨by decide, by decide⟩, List.chain'_singleton _⟩
  · intro r hr
    rcases List.mem_cons.mp hr with rfl | hr2
    · decide
    · cases hr2
  · intro r hr
    rcases List.mem_cons.mp hr with rfl | hr2
    · decide
    · rcases List.mem_cons.mp hr2 with rfl | hr3
      · decide
      · cases hr3
  · intro i hi j hj heq
    fin_cases hi <;> fin_cases hj <;>
      first
        | rfl
        | (exfalso; revert heq; decide)

/-- Witness for C10: a concrete one-entry cache probed at index 5. -/
theorem c10_dangling_index_sticks_witness :
    witnessFormat.source_locations.length ≤ 5 ∧
    iterStates ⟨witnessFormat, some 5⟩ 3 = ⟨witnessFormat, some 5⟩ ∧
    (SourceLocationIter.next (iterStates ⟨witnessFormat, some 5⟩ 3)).1 =
      .error (.invalidSourceLocationReference 5) := by
  refine ⟨by decide, ?_⟩
  exact c10_dangling_index_sticks witnessFormat 5 (by decide) 3

end Symbolic
